import Mathlib

/-!
# Verification of the SeismicMatch matched-filter detection engine

Shallow embedding of the core of `seismic_match/template_matching.py`
(class `TemplateMatcher`) together with theorems settling the frozen
claims about it.  Machine floats are modelled by exact rationals; the
few places where the Python code takes a square root are parametrised
by an explicit square-root function so that every definition stays
computable.
-/

namespace SeismicMatch

/-! ## ChunkPlanner: `TemplateMatcher.find_optimal_chunksize`

The Python body is

```
n_it = int(N / chunk) + (N % chunk > 0)
chunk = int(N / n_it) + (N % n_it > 0)
return chunk
```

For nonnegative integers of the magnitudes involved, `int(N / d)` (float
division, truncated) equals integer floor division `N / d`, and
`N % d > 0` contributes `1` exactly when the remainder is nonzero, so
each line computes a ceiling division — except that Python raises
`ZeroDivisionError` when the divisor is zero, which we model by `none`.
-/

/-- One line of `find_optimal_chunksize`: `int(N / d) + (N % d > 0)`. -/
def ceilPy (N d : ℕ) : ℕ := N / d + (if N % d = 0 then 0 else 1)

/-- `TemplateMatcher.find_optimal_chunksize(chunk, N)`
(`template_matching.py`, lines 66-76).  `none` models a Python
`ZeroDivisionError` (divisor zero on either line). -/
def find_optimal_chunksize (chunk N : ℕ) : Option ℕ :=
  if chunk = 0 then none
  else
    let n_it := ceilPy N chunk
    if n_it = 0 then none
    else some (ceilPy N n_it)

lemma ceilPy_le_iff (N d x : ℕ) (hd : 0 < d) : ceilPy N d ≤ x ↔ N ≤ d * x := by
  rcases Nat.eq_zero_or_pos (N % d) with h | h
  · have hdvd : d ∣ N := Nat.dvd_of_mod_eq_zero h
    obtain ⟨q, rfl⟩ := hdvd
    rw [ceilPy, Nat.mul_mod_right, if_pos rfl, Nat.add_zero,
      Nat.mul_div_cancel_left _ hd]
    exact ⟨fun hq => mul_le_mul_left' hq d,
           fun hq => Nat.le_of_mul_le_mul_left hq hd⟩
  · rw [ceilPy, if_neg (by omega)]
    have h1 := Nat.div_add_mod N d
    have hmod := Nat.mod_lt N hd
    constructor
    · intro hx
      have h2 : N < d * (N / d + 1) := by
        rw [Nat.mul_add, Nat.mul_one]; omega
      have h3 : d * (N / d + 1) ≤ d * x := mul_le_mul_left' (by omega) d
      omega
    · intro hN
      have h2 : d * (N / d) < d * x := by omega
      have h3 : N / d < x := Nat.lt_of_mul_lt_mul_left h2
      omega

lemma ceilPy_pos (N d : ℕ) (hd : 0 < d) (hN : 0 < N) : 0 < ceilPy N d := by
  rcases Nat.eq_zero_or_pos (N / d) with h | h
  · have hmod : N % d ≠ 0 := by
      intro hmod
      have h2 := Nat.div_add_mod N d
      rw [h, hmod, Nat.mul_zero] at h2
      omega
    rw [ceilPy, if_neg hmod]
    omega
  · rw [ceilPy]; omega

/-- C2 (counterexample): the claim quantifies over *every* input, but
`find_optimal_chunksize(1, 0)` computes `n_it = 0` and then divides by
zero (`ZeroDivisionError`), returning no chunk size at all. -/
theorem find_optimal_chunksize_total_zero_raises :
    find_optimal_chunksize 1 0 = none := by decide

/-- C2 (amended): for every capacity `chunk ≥ 1` and item count `N ≥ 1`,
`find_optimal_chunksize` returns a chunk size `r` with `1 ≤ r ≤ chunk`
and `⌈N / r⌉ = ⌈N / chunk⌉`; when `N = 0` (or `chunk = 0`) the function
instead raises `ZeroDivisionError`. -/
theorem find_optimal_chunksize_spec (chunk N : ℕ) (hc : 1 ≤ chunk) (hN : 1 ≤ N) :
    ∃ r, find_optimal_chunksize chunk N = some r ∧
      1 ≤ r ∧ r ≤ chunk ∧ ceilPy N r = ceilPy N chunk := by
  have hc0 : 0 < chunk := hc
  set m := ceilPy N chunk with hm
  have hm1 : 1 ≤ m := ceilPy_pos N chunk hc0 hN
  have hNcm : N ≤ chunk * m :=
    (ceilPy_le_iff N chunk m hc0).1 (le_of_eq hm.symm)
  set r := ceilPy N m with hr
  have hr1 : 1 ≤ r := ceilPy_pos N m hm1 hN
  have hNmr : N ≤ m * r :=
    (ceilPy_le_iff N m r hm1).1 (le_of_eq hr.symm)
  have hrc : r ≤ chunk := by
    rw [hr, ceilPy_le_iff N m chunk hm1, Nat.mul_comm]
    exact hNcm
  refine ⟨r, ?_, hr1, hrc, ?_⟩
  · unfold find_optimal_chunksize
    rw [if_neg (by omega), if_neg (by omega)]
  · have hub : ceilPy N r ≤ m := by
      rw [ceilPy_le_iff N r m hr1, Nat.mul_comm]
      exact hNmr
    have hlb : m ≤ ceilPy N r := by
      by_contra hlt
      push_neg at hlt
      have h1 : ceilPy N r ≤ m - 1 := by omega
      have h2 : N ≤ r * (m - 1) := (ceilPy_le_iff N r (m - 1) hr1).1 h1
      have h3 : ¬ (N ≤ chunk * (m - 1)) := by
        intro habs
        have : m ≤ m - 1 := (ceilPy_le_iff N chunk (m - 1) hc0).2 habs
        omega
      have h4 : r * (m - 1) ≤ chunk * (m - 1) :=
        Nat.mul_le_mul_right _ hrc
      omega
    omega

/-- C2 (witness): the amended statement applied at capacity 3, total 7. -/
theorem find_optimal_chunksize_spec_witness :
    ∃ r, find_optimal_chunksize 3 7 = some r ∧
      1 ≤ r ∧ r ≤ 3 ∧ ceilPy 7 r = ceilPy 7 3 :=
  find_optimal_chunksize_spec 3 7 (by decide) (by decide)

/-- C10: when the capacity already covers all items
(`1 ≤ N ≤ chunk`), the planned chunk size collapses to the item count:
`find_optimal_chunksize chunk N = N`. -/
theorem find_optimal_chunksize_collapses (chunk N : ℕ)
    (hN : 1 ≤ N) (hle : N ≤ chunk) :
    find_optimal_chunksize chunk N = some N := by
  have hc0 : 0 < chunk := by omega
  have hm : ceilPy N chunk = 1 := by
    have h1 : ceilPy N chunk ≤ 1 := by
      rw [ceilPy_le_iff N chunk 1 hc0, Nat.mul_one]; exact hle
    have h0 : 0 < ceilPy N chunk := ceilPy_pos N chunk hc0 hN
    omega
  unfold find_optimal_chunksize
  rw [if_neg (by omega), hm, if_neg (by omega)]
  simp [ceilPy, Nat.div_one, Nat.mod_one]

/-- C10 (witness): capacity 5, total 3 yields chunk size exactly 3. -/
theorem find_optimal_chunksize_collapses_witness :
    find_optimal_chunksize 5 3 = some 3 :=
  find_optimal_chunksize_collapses 5 3 (by decide) (by decide)



/-! ## Normalizer: `window_sum`, `pad_zeros` and the local-energy sequence -/

/-- `np.convolve(x, np.ones(n), 'valid')` for an all-ones kernel of
length `n`: entry `i` is `x[i] + … + x[i+n-1]` and the result has
length `x.length - n + 1` (written `x.length + 1 - n` so it is total). -/
def convolveOnesValid (x : List ℚ) (n : ℕ) : List ℚ :=
  (List.range (x.length + 1 - n)).map (fun i => ∑ j ∈ Finset.range n, x.getD (i + j) 0)

/-- `TemplateMatcher.window_sum(data, window_len)` (`template_matching.py`,
lines 350-354): rolling sum via an all-ones `'valid'` convolution,
then `[1:]` drops the first entry. -/
def window_sum (data : List ℚ) (window_len : ℕ) : List ℚ :=
  (convolveOnesValid data window_len).drop 1

/-- `TemplateMatcher.pad_zeros(a, M, num, num2)` (lines 356-365) with
`M = a.length`: an array of `M + num + num2` zeros whose middle slice is
`a`, i.e. `num` leading and `num2` trailing zeros. -/
def pad_zeros (a : List ℚ) (num num2 : ℕ) : List ℚ :=
  List.replicate num 0 ++ a ++ List.replicate num2 0

/-- The local-energy sequence computed in `matrix_cc` (lines 312-316):
`pad = 1`, `pad1, pad2 = (pad + 1) // 2, pad // 2 = (1, 0)`, then
`data_norm = window_sum(pad_zeros(data_tr, M, 1, 0) ** 2, N)`. -/
def dataNormSeq (data : List ℚ) (N : ℕ) : List ℚ :=
  window_sum ((pad_zeros data 1 0).map (fun v => v ^ 2)) N

/-- Sum of squares of the `N` data samples starting at sample `k`
(the "local window energy" of the spec). -/
def windowEnergy (data : List ℚ) (N k : ℕ) : ℚ :=
  ∑ j ∈ Finset.range N, (data.getD (k + j) 0) ^ 2

lemma pad_zeros_one_zero (a : List ℚ) : pad_zeros a 1 0 = 0 :: a := by
  simp [pad_zeros]

lemma getD_range_map (L : ℕ) (f : ℕ → ℚ) (k : ℕ) (hk : k < L) :
    ((List.range L).map f).getD k 0 = f k := by
  rw [List.getD_eq_getElem?_getD, List.getElem?_map, List.getElem?_range hk]
  rfl

lemma getD_drop_one (l : List ℚ) (k : ℕ) :
    (l.drop 1).getD k 0 = l.getD (k + 1) 0 := by
  rw [List.getD_eq_getElem?_getD, List.getD_eq_getElem?_getD,
    List.getElem?_drop, Nat.add_comm]

lemma getD_map_sq (l : List ℚ) (k : ℕ) (hk : k < l.length) :
    (l.map (fun v => v ^ 2)).getD k 0 = (l.getD k 0) ^ 2 := by
  rw [List.getD_eq_getElem?_getD, List.getElem?_map, List.getElem?_eq_getElem hk,
      List.getD_eq_getElem?_getD, List.getElem?_eq_getElem hk]
  rfl

/-- C6: for a data trace of length `M` and template length `N` with
`1 ≤ N ≤ M`, the local-energy computation (`pad_zeros` followed by
`window_sum` of the squares) has length exactly `M - N + 1` and its
entry at every lag `k ≤ M - N` is the sum of squares of data samples
`k` through `k + N - 1`. -/
lemma dataNormSeq_length (data : List ℚ) (N : ℕ) (hN : 1 ≤ N) (hNM : N ≤ data.length) :
    (dataNormSeq data N).length = data.length - N + 1 := by
  have hsq_len : ((pad_zeros data 1 0).map (fun v => v ^ 2)).length = data.length + 1 := by
    rw [pad_zeros_one_zero]; simp
  rw [dataNormSeq, window_sum, List.length_drop, convolveOnesValid,
    List.length_map, List.length_range, hsq_len]
  omega

lemma dataNormSeq_getD (data : List ℚ) (N k : ℕ) (hN : 1 ≤ N) (hNM : N ≤ data.length)
    (hk : k ≤ data.length - N) :
    (dataNormSeq data N).getD k 0 = windowEnergy data N k := by
  have hsq_len : ((pad_zeros data 1 0).map (fun v => v ^ 2)).length = data.length + 1 := by
    rw [pad_zeros_one_zero]; simp
  rw [dataNormSeq, window_sum, getD_drop_one, convolveOnesValid,
    getD_range_map _ _ _ (by rw [hsq_len]; omega)]
  rw [windowEnergy]
  apply Finset.sum_congr rfl
  intro j hj
  have hjN : j < N := Finset.mem_range.1 hj
  have hidx : k + 1 + j = (k + j) + 1 := by omega
  rw [hidx, pad_zeros_one_zero, List.map_cons, List.getD_cons_succ,
    getD_map_sq _ _ (by omega)]

theorem local_energy_spec (data : List ℚ) (N : ℕ)
    (hN : 1 ≤ N) (hNM : N ≤ data.length) :
    (dataNormSeq data N).length = data.length - N + 1 ∧
    ∀ k ≤ data.length - N,
      (dataNormSeq data N).getD k 0 = windowEnergy data N k :=
  ⟨dataNormSeq_length data N hN hNM,
   fun k hk => dataNormSeq_getD data N k hN hNM hk⟩

/-- C6 (witness): the statement applied to the trace `[1, 2, 3]` with
template length 2: the energies are `[5, 13]`. -/
theorem local_energy_spec_witness :
    (dataNormSeq [1, 2, 3] 2).length = 2 ∧
    ∀ k ≤ 1, (dataNormSeq [1, 2, 3] 2).getD k 0 = windowEnergy [1, 2, 3] 2 k :=
  local_energy_spec [1, 2, 3] 2 (by decide) (by decide)


/-! ## PeakDetector: `TemplateMatcher.find_peaks` -/

/-- The threshold parameters of the configuration object consumed by
`find_peaks` (`config.cc_threshold`, `config.mad_threshold`,
`config.combine_thresholds`). -/
structure MatchConfig where
  cc_threshold : ℚ
  mad_threshold : ℚ
  combine_thresholds : Bool

/-- The triple returned by `find_peaks`: peak lags, their correlation
values, and their MAD-normalised values. -/
structure PeaksResult where
  tops : List ℕ
  cc_values : List ℚ
  mad_values : List ℚ

/-- Stable ascending insertion into a sorted list of rationals. -/
def insertAsc (x : ℚ) : List ℚ → List ℚ
  | [] => [x]
  | y :: rest => if x ≤ y then x :: y :: rest else y :: insertAsc x rest

/-- Ascending insertion sort (`np.median` sorts its input; any
comparison sort computes the same order statistics). -/
def sortAsc (l : List ℚ) : List ℚ := l.foldr insertAsc []

/-- `np.median` over exact rationals: sort, then take the middle element
(odd length) or the mean of the two central elements (even length).
`np.median` of an empty array is NaN with a warning; for an empty
correlation sequence every downstream result is empty whatever this
value is, and it is mapped to 0 here. -/
def npMedian (l : List ℚ) : ℚ :=
  let s := sortAsc l
  let n := l.length
  if n = 0 then 0
  else if n % 2 = 1 then s.getD (n / 2) 0
  else (s.getD (n / 2 - 1) 0 + s.getD (n / 2) 0) / 2

/-- Lines 220-225 of `find_peaks`: daily median absolute deviation with
the `1e-6` water level (`1e-6` is taken as the exact rational; the
nearest float64 differs only in the 17th significant digit and plays
the same role of a positive floor). -/
def madWaterLevel (day_cc : List ℚ) : ℚ :=
  let median := npMedian day_cc
  let mad := npMedian (day_cc.map (fun x => |x - median|))
  if mad = 0 then 1 / 1000000 else mad

/-- Lines 227-232: the effective local threshold — `max` of the two
criteria when `combine_thresholds` is set (both must hold), `min`
otherwise (either suffices). -/
def localThreshold (cfg : MatchConfig) (mad : ℚ) : ℚ :=
  if cfg.combine_thresholds then max cfg.cc_threshold (cfg.mad_threshold * mad)
  else min cfg.cc_threshold (cfg.mad_threshold * mad)

/-- Line 233: `tops = cp.where(abs_cc >= local_threshold)[0]`, the
candidate lags considered for peaks. -/
def candidateLags (day_cc : List ℚ) (cfg : MatchConfig) : List ℕ :=
  (List.range day_cc.length).filter
    (fun i => localThreshold cfg (madWaterLevel day_cc) ≤ |day_cc.getD i 0|)

/-- Inner `while` loop of the contiguous-run reduction (lines 244-255)
with explicit fuel: the loop advances one sample per iteration and
needs `x + 1 < len`, so `abs_cc.length` steps always suffice and the
fuel is never exhausted where it is called.  State: current position
`x`, current run maximum `p`, current mark vector `peaks`.  While the
next sample stays at or above the threshold the scan moves right, and a
sample strictly above the running maximum takes the mark from the
current position (`peaks[x] = False; peaks[x+1] = True`). -/
def runScan (abs_cc : List ℚ) (thr : ℚ) (fuel x : ℕ) (p : ℚ)
    (peaks : List Bool) : List Bool × ℕ :=
  if fuel = 0 then (peaks, x)
  else if x + 1 < abs_cc.length then
    if abs_cc.getD (x + 1) 0 < thr then (peaks, x)
    else if p < abs_cc.getD (x + 1) 0 then
      runScan abs_cc thr (fuel - 1) (x + 1) (abs_cc.getD (x + 1) 0)
        ((peaks.set x false).set (x + 1) true)
    else runScan abs_cc thr (fuel - 1) (x + 1) p peaks
  else (peaks, x)
termination_by fuel
decreasing_by all_goals omega

/-- The candidate iteration of lines 236-255.  The Python `for x in it`
with the inner `try: next(it)` consumes exactly the candidate indices
the `while` walks past, so the combination is one left-to-right scan:
below-threshold positions are passed over (they are not in `tops`), a
run start `x` is marked (`peaks[x] = True`) and handed to `runScan`,
and the scan resumes one past the position where the run ended.  (The
`break` on line 238-239 never fires: every candidate satisfies
`abs_cc[x] >= local_threshold` by construction of `tops`.) -/
def peaksScan (abs_cc : List ℚ) (thr : ℚ) (fuel x : ℕ)
    (peaks : List Bool) : List Bool :=
  if fuel = 0 then peaks
  else if x < abs_cc.length then
    if abs_cc.getD x 0 < thr then peaksScan abs_cc thr (fuel - 1) (x + 1) peaks
    else
      let r := runScan abs_cc thr abs_cc.length x (abs_cc.getD x 0) (peaks.set x true)
      peaksScan abs_cc thr (fuel - 1) (r.2 + 1) r.1
  else peaks
termination_by fuel
decreasing_by all_goals omega

/-- `cp.where(peaks)[0]`: indices of the set marks, ascending. -/
def trueLags (peaks : List Bool) : List ℕ :=
  (List.range peaks.length).filter (fun i => peaks.getD i false)

/-- Python slice assignment `peaks[a:b] = False` for a step-1 integer
slice: a negative bound is first shifted by the length (Python
wrap-around), then both bounds are clamped to `[0, len]`, and the
positions in `[start, stop)` are cleared. -/
def pySliceClear (peaks : List Bool) (a b : ℤ) : List Bool :=
  let n : ℤ := peaks.length
  let start := if a < 0 then max (n + a) 0 else min a n
  let stop := if b < 0 then max (n + b) 0 else min b n
  (List.range peaks.length).map
    (fun (i : ℕ) => if start ≤ (i : ℤ) ∧ (i : ℤ) < stop then false else peaks.getD i false)

/-- Stable insertion into a descending-by-key list: `i` goes after every
element whose key is `≥` its own. -/
def insertDescBy (key : ℕ → ℚ) (i : ℕ) : List ℕ → List ℕ
  | [] => [i]
  | j :: rest => if key j < key i then i :: j :: rest else j :: insertDescBy key i rest

/-- `sorted(tops, key=lambda x: abs_cc[x], reverse=True)` (line 258):
stable sort, descending by absolute correlation (Python's `sorted` with
`reverse=True` keeps equal elements in their original order, as stable
insertion does). -/
def sortDescByKey (key : ℕ → ℚ) (l : List ℕ) : List ℕ :=
  l.foldl (fun acc i => insertDescBy key i acc) []

/-- Lines 256-263: the global exclusion pass.  Surviving marks are
visited in order of decreasing absolute correlation; a candidate `x`
still marked clears the Python slice `peaks[x-distance : x+distance]`
and re-marks itself (`peaks[x] = True`); a candidate already cleared is
skipped (`if not peaks[x]: continue`). -/
def exclusionPass (abs_cc : List ℚ) (distance : ℕ) (peaks : List Bool) : List Bool :=
  (sortDescByKey (fun i => abs_cc.getD i 0) (trueLags peaks)).foldl
    (fun pk x =>
      if pk.getD x false then
        (pySliceClear pk ((x : ℤ) - (distance : ℤ)) ((x : ℤ) + (distance : ℤ))).set x true
      else pk)
    peaks

/-- Lines 264-267: the returned triple, read off the final mark vector:
`tops = cp.where(peaks)[0]`, `cc_values = day_cc[tops]`,
`mad_values = cc_values / mad`. -/
def peaksFromMarks (day_cc : List ℚ) (marks : List Bool) (mad : ℚ) : PeaksResult :=
  { tops := trueLags marks
    cc_values := (trueLags marks).map (fun i => day_cc.getD i 0)
    mad_values := (trueLags marks).map (fun i => day_cc.getD i 0 / mad) }

/-- `TemplateMatcher.find_peaks(day_cc, distance)` (lines 211-267),
assembled from the stages above: `abs_cc = cp.abs(day_cc)`, the
adaptive threshold, the contiguous-run scan over the candidates, the
global exclusion pass, and the `(tops, cc_values, mad_values)` triple
(`peaksFromMarks`, lines 264-267) read off the surviving marks in
ascending lag order. -/
def find_peaks (day_cc : List ℚ) (distance : ℕ) (cfg : MatchConfig) : PeaksResult :=
  peaksFromMarks day_cc
    (exclusionPass (day_cc.map (fun v => |v|)) distance
      (peaksScan (day_cc.map (fun v => |v|))
        (localThreshold cfg (madWaterLevel day_cc))
        (day_cc.map (fun v => |v|)).length 0
        (List.replicate day_cc.length false)))
    (madWaterLevel day_cc)


/-! ### Supporting lemmas for the peak detector -/

lemma getD_range_map_poly {α : Type} (L : ℕ) (f : ℕ → α) (d : α) (k : ℕ) (hk : k < L) :
    ((List.range L).map f).getD k d = f k := by
  rw [List.getD_eq_getElem?_getD, List.getElem?_map, List.getElem?_range hk]
  rfl

lemma getD_map_of_lt {α β : Type} (f : α → β) (l : List α) (k : ℕ) (d : α) (e : β)
    (hk : k < l.length) : (l.map f).getD k e = f (l.getD k d) := by
  rw [List.getD_eq_getElem?_getD, List.getElem?_map, List.getElem?_eq_getElem hk,
    List.getD_eq_getElem?_getD, List.getElem?_eq_getElem hk]
  rfl

lemma getD_set_imp (pk : List Bool) (x i : ℕ) (b : Bool)
    (h : (pk.set x b).getD i false = true) :
    (i = x ∧ b = true) ∨ pk.getD i false = true := by
  rw [List.getD_eq_getElem?_getD, List.getElem?_set] at h
  by_cases hx : x = i
  · subst hx
    by_cases hlen : x < pk.length
    · rw [if_pos rfl, if_pos hlen] at h
      exact Or.inl ⟨rfl, h⟩
    · rw [if_pos rfl, if_neg hlen] at h
      simp at h
  · rw [if_neg hx] at h
    right
    rw [List.getD_eq_getElem?_getD]
    exact h

lemma getD_replicate_false (n i : ℕ) :
    (List.replicate n false).getD i false = false := by
  rw [List.getD_eq_getElem?_getD, List.getElem?_replicate]
  by_cases h : i < n <;> simp [h]

lemma pySliceClear_length (pk : List Bool) (a b : ℤ) :
    (pySliceClear pk a b).length = pk.length := by
  simp [pySliceClear]

lemma pySliceClear_true_imp (pk : List Bool) (a b : ℤ) (i : ℕ)
    (h : (pySliceClear pk a b).getD i false = true) :
    pk.getD i false = true := by
  by_cases hi : i < pk.length
  · rw [pySliceClear] at h
    rw [getD_range_map_poly _ _ _ _ hi] at h
    rcases ite_eq_iff.1 h with ⟨_, hfalse⟩ | ⟨_, hv⟩
    · exact absurd hfalse.symm (by simp)
    · exact hv
  · rw [List.getD_eq_default _ _ (by rw [pySliceClear_length]; omega)] at h
    exact absurd h (by simp)

lemma runScan_length (a : List ℚ) (t : ℚ) (fuel x : ℕ) (p : ℚ) (pk : List Bool) :
    (runScan a t fuel x p pk).1.length = pk.length := by
  induction fuel using Nat.strong_induction_on generalizing x p pk with
  | _ fuel ih =>
    rw [runScan]
    split
    · rfl
    · rename_i hf
      split
      · split
        · rfl
        · split
          · rw [ih (fuel - 1) (by omega)]
            simp [List.length_set]
          · exact ih (fuel - 1) (by omega) _ _ _
      · rfl

lemma runScan_pos_le (a : List ℚ) (t : ℚ) (fuel x : ℕ) (p : ℚ) (pk : List Bool) :
    x ≤ (runScan a t fuel x p pk).2 := by
  induction fuel using Nat.strong_induction_on generalizing x p pk with
  | _ fuel ih =>
    rw [runScan]
    split
    · rfl
    · split
      · split
        · rfl
        · split
          · exact le_trans (by omega) (ih (fuel - 1) (by omega) _ _ _)
          · exact le_trans (by omega) (ih (fuel - 1) (by omega) _ _ _)
      · rfl

lemma runScan_true_imp (a : List ℚ) (t : ℚ) (fuel x : ℕ) (p : ℚ) (pk : List Bool) (i : ℕ)
    (h : (runScan a t fuel x p pk).1.getD i false = true) :
    pk.getD i false = true ∨ t ≤ a.getD i 0 := by
  induction fuel using Nat.strong_induction_on generalizing x p pk with
  | _ fuel ih =>
    rw [runScan] at h
    split at h
    · exact Or.inl h
    · split at h
      · split at h
        · exact Or.inl h
        · rename_i hlt hthr
          split at h
          · rcases ih (fuel - 1) (by omega) _ _ _ h with h2 | h2
            · rcases getD_set_imp _ _ _ _ h2 with ⟨hi, _⟩ | h3
              · subst hi
                exact Or.inr (not_lt.1 hthr)
              · rcases getD_set_imp _ _ _ _ h3 with ⟨_, hb⟩ | h4
                · exact absurd hb (by simp)
                · exact Or.inl h4
            · exact Or.inr h2
          · rcases ih (fuel - 1) (by omega) _ _ _ h with h2 | h2
            · exact Or.inl h2
            · exact Or.inr h2
      · exact Or.inl h


lemma peaksScan_length (a : List ℚ) (t : ℚ) (fuel x : ℕ) (pk : List Bool) :
    (peaksScan a t fuel x pk).length = pk.length := by
  induction fuel using Nat.strong_induction_on generalizing x pk with
  | _ fuel ih =>
    rw [peaksScan]
    split
    · rfl
    · split
      · split
        · exact ih (fuel - 1) (by omega) _ _
        · rw [ih (fuel - 1) (by omega), runScan_length]
          simp [List.length_set]
      · rfl

lemma peaksScan_true_imp (a : List ℚ) (t : ℚ) (fuel x : ℕ) (pk : List Bool) (i : ℕ)
    (h : (peaksScan a t fuel x pk).getD i false = true) :
    pk.getD i false = true ∨ t ≤ a.getD i 0 := by
  induction fuel using Nat.strong_induction_on generalizing x pk with
  | _ fuel ih =>
    rw [peaksScan] at h
    split at h
    · exact Or.inl h
    · split at h
      · split at h
        · exact ih (fuel - 1) (by omega) _ _ h
        · rename_i hthr
          rcases ih (fuel - 1) (by omega) _ _ h with h2 | h2
          · rcases runScan_true_imp _ _ _ _ _ _ _ h2 with h3 | h3
            · rcases getD_set_imp _ _ _ _ h3 with ⟨hi, _⟩ | h4
              · subst hi
                exact Or.inr (not_lt.1 hthr)
              · exact Or.inl h4
            · exact Or.inr h3
          · exact Or.inr h2
      · exact Or.inl h

lemma peaksScan_no_candidates (a : List ℚ) (t : ℚ) (fuel x : ℕ) (pk : List Bool)
    (h : ∀ i, i < a.length → a.getD i 0 < t) :
    peaksScan a t fuel x pk = pk := by
  induction fuel using Nat.strong_induction_on generalizing x pk with
  | _ fuel ih =>
    rw [peaksScan]
    split
    · rfl
    · split
      · rename_i hx
        rw [if_pos (h x hx)]
        exact ih (fuel - 1) (by omega) _ _
      · rfl

lemma exclusionPass_true_imp (a : List ℚ) (d : ℕ) (pk : List Bool) (i : ℕ)
    (h : (exclusionPass a d pk).getD i false = true) :
    pk.getD i false = true := by
  rw [exclusionPass] at h
  generalize sortDescByKey (fun i => a.getD i 0) (trueLags pk) = l at h
  induction l generalizing pk with
  | nil => exact h
  | cons x rest ih =>
    rw [List.foldl_cons] at h
    have hstep := ih _ h
    split at hstep
    · rename_i hguard
      rcases getD_set_imp _ _ _ _ hstep with ⟨hi, _⟩ | h2
      · subst hi; exact hguard
      · exact pySliceClear_true_imp _ _ _ _ h2
    · exact hstep

lemma exclusionPass_length (a : List ℚ) (d : ℕ) (pk : List Bool) :
    (exclusionPass a d pk).length = pk.length := by
  rw [exclusionPass]
  generalize sortDescByKey (fun i => a.getD i 0) (trueLags pk) = l
  induction l generalizing pk with
  | nil => rfl
  | cons x rest ih =>
    rw [List.foldl_cons, ih]
    split
    · rw [List.length_set, pySliceClear_length]
    · rfl

lemma trueLags_replicate_false (n : ℕ) : trueLags (List.replicate n false) = [] := by
  rw [trueLags, List.filter_eq_nil_iff]
  intro i _
  simp [getD_replicate_false]

lemma trueLags_mem_lt (pk : List Bool) (i : ℕ) (h : i ∈ trueLags pk) :
    i < pk.length ∧ pk.getD i false = true := by
  rw [trueLags, List.mem_filter, List.mem_range] at h
  exact ⟨h.1, by simpa using h.2⟩


/-! ### Claims about the peak detector -/

/-- C3 (failing run, `code_bug`): on the correlation sequence
`[2, 0, 3, 0, 0, 0, 0, 0]` with exclusion radius `distance = 3`
(the template length) and effective threshold 1, the two candidates sit
at lags 0 and 2 — only 2 < 3 samples apart — yet *both* are emitted.
The exclusion slice `peaks[x-distance : x+distance]` has a negative
start for `x < distance`, which Python wraps around to the end of the
array, so the intended suppression window is empty and neither
candidate suppresses the other, contradicting the code's own comment
("ignore peaks that are too close to current peak", line 261). -/
theorem close_peaks_both_emitted :
    find_peaks [2, 0, 3, 0, 0, 0, 0, 0] 3 ⟨1, 1, true⟩ =
      ⟨[0, 2], [2, 3], [2000000, 3000000]⟩ := by
  simp only [find_peaks, peaksFromMarks]
  norm_num [madWaterLevel, npMedian, sortAsc, insertAsc, localThreshold, List.replicate]
  repeat (first
    | (rw [runScan]; norm_num)
    | (rw [peaksScan]; norm_num))
  norm_num [exclusionPass, trueLags, sortDescByKey, insertDescBy, pySliceClear,
    List.range_succ, madWaterLevel, npMedian, sortAsc, insertAsc]

/-- C5: with `combine_thresholds` set (AND semantics) a lag is a
candidate iff its absolute correlation passes *both* `cc_threshold` and
`mad_threshold · MAD`; without it (OR semantics) iff it passes
*either*; and every lag emitted by `find_peaks` passed this effective
threshold comparison. -/
theorem combine_mode_thresholding (day_cc : List ℚ) (cfg : MatchConfig)
    (distance i : ℕ) (hi : i < day_cc.length) :
    (cfg.combine_thresholds = true →
      (i ∈ candidateLags day_cc cfg ↔
        cfg.cc_threshold ≤ |day_cc.getD i 0| ∧
        cfg.mad_threshold * madWaterLevel day_cc ≤ |day_cc.getD i 0|)) ∧
    (cfg.combine_thresholds = false →
      (i ∈ candidateLags day_cc cfg ↔
        cfg.cc_threshold ≤ |day_cc.getD i 0| ∨
        cfg.mad_threshold * madWaterLevel day_cc ≤ |day_cc.getD i 0|)) ∧
    (i ∈ (find_peaks day_cc distance cfg).tops → i ∈ candidateLags day_cc cfg) := by
  have hmem : i ∈ candidateLags day_cc cfg ↔
      localThreshold cfg (madWaterLevel day_cc) ≤ |day_cc.getD i 0| := by
    rw [candidateLags, List.mem_filter, List.mem_range]
    constructor
    · intro h
      exact of_decide_eq_true h.2
    · intro h
      exact ⟨hi, decide_eq_true h⟩
  refine ⟨?_, ?_, ?_⟩
  · intro hc
    rw [hmem, localThreshold, hc, if_pos rfl]
    exact max_le_iff
  · intro hc
    rw [hmem, localThreshold, hc]
    simp only [Bool.false_eq_true, if_false]
    exact min_le_iff
  · intro htop
    rw [find_peaks, peaksFromMarks] at htop
    simp only at htop
    have h2 := trueLags_mem_lt _ _ htop
    have h3 := exclusionPass_true_imp _ _ _ _ h2.2
    have h4 := peaksScan_true_imp _ _ _ _ _ _ h3
    rcases h4 with h5 | h5
    · rw [getD_replicate_false] at h5
      exact absurd h5 (by simp)
    · rw [hmem]
      rw [getD_map_of_lt (fun v => |v|) day_cc i 0 0 hi] at h5
      exact h5

/-- C5 (witness): the statement applied to `[2, 0]` with both modes'
characterisations at lag 0. -/
theorem combine_mode_thresholding_witness :
    ((⟨1, 1, true⟩ : MatchConfig).combine_thresholds = true →
      (0 ∈ candidateLags [2, 0] ⟨1, 1, true⟩ ↔
        (⟨1, 1, true⟩ : MatchConfig).cc_threshold ≤ |([2, 0] : List ℚ).getD 0 0| ∧
        (⟨1, 1, true⟩ : MatchConfig).mad_threshold * madWaterLevel [2, 0] ≤
          |([2, 0] : List ℚ).getD 0 0|)) ∧
    ((⟨1, 1, true⟩ : MatchConfig).combine_thresholds = false →
      (0 ∈ candidateLags [2, 0] ⟨1, 1, true⟩ ↔
        (⟨1, 1, true⟩ : MatchConfig).cc_threshold ≤ |([2, 0] : List ℚ).getD 0 0| ∨
        (⟨1, 1, true⟩ : MatchConfig).mad_threshold * madWaterLevel [2, 0] ≤
          |([2, 0] : List ℚ).getD 0 0|)) ∧
    (0 ∈ (find_peaks [2, 0] 1 ⟨1, 1, true⟩).tops →
      0 ∈ candidateLags [2, 0] ⟨1, 1, true⟩) :=
  combine_mode_thresholding [2, 0] ⟨1, 1, true⟩ 1 0 (by decide)


lemma getD_replicate_zero (n i : ℕ) : (List.replicate n (0 : ℚ)).getD i 0 = 0 := by
  rw [List.getD_eq_getElem?_getD, List.getElem?_replicate]
  by_cases h : i < n <;> simp [h]

lemma npMedian_replicate_zero (n : ℕ) : npMedian (List.replicate n 0) = 0 := by
  have hsort : sortAsc (List.replicate n 0) = List.replicate n 0 := by
    induction n with
    | zero => rfl
    | succ k ih =>
      rw [List.replicate_succ, sortAsc, List.foldr_cons]
      rw [show List.foldr insertAsc [] (List.replicate k 0) = sortAsc (List.replicate k 0) from rfl]
      rw [ih]
      cases k with
      | zero => rfl
      | succ m =>
        rw [List.replicate_succ, insertAsc, if_pos le_rfl, ← List.replicate_succ,
          ← List.replicate_succ]
  rw [npMedian, hsort]
  simp only [List.length_replicate]
  rcases Nat.eq_zero_or_pos n with hn | hn
  · simp [hn]
  · rw [if_neg (by omega)]
    rcases Nat.even_or_odd n with he | ho
    · rw [if_neg (by rcases he with ⟨k, hk⟩; omega)]
      rw [getD_replicate_zero, getD_replicate_zero]
      norm_num
    · rw [if_pos (by rcases ho with ⟨k, hk⟩; omega)]
      exact getD_replicate_zero _ _

lemma madWaterLevel_replicate_zero (n : ℕ) :
    madWaterLevel (List.replicate n 0) = 1 / 1000000 := by
  rw [madWaterLevel, npMedian_replicate_zero]
  have hmap : (List.replicate n (0 : ℚ)).map (fun x => |x - 0|) = List.replicate n 0 := by
    rw [List.map_replicate]
    norm_num
  rw [hmap, npMedian_replicate_zero, if_pos rfl]

lemma find_peaks_empty_of_below (day_cc : List ℚ) (distance : ℕ) (cfg : MatchConfig)
    (h : ∀ i, i < day_cc.length →
      |day_cc.getD i 0| < localThreshold cfg (madWaterLevel day_cc)) :
    find_peaks day_cc distance cfg = ⟨[], [], []⟩ := by
  rw [find_peaks]
  have habs : ∀ i, i < (day_cc.map (fun v => |v|)).length →
      (day_cc.map (fun v => |v|)).getD i 0 < localThreshold cfg (madWaterLevel day_cc) := by
    intro i hi
    rw [List.length_map] at hi
    rw [getD_map_of_lt (fun v => |v|) day_cc i 0 0 hi]
    exact h i hi
  rw [peaksScan_no_candidates _ _ _ _ _ habs]
  rw [exclusionPass]
  rw [trueLags_replicate_false, sortDescByKey, List.foldl_nil, List.foldl_nil]
  rw [peaksFromMarks, trueLags_replicate_false]
  rfl

/-- C8 (amended): degenerate inputs of `find_peaks`.
* An empty correlation sequence yields the empty result (no error).
* A sequence entirely below the effective local threshold yields the
  empty result.
* For an all-zero sequence the MAD of zero is replaced by the positive
  floor `1e-6`, so no division by zero occurs.
* For an all-zero sequence the result is empty whenever `cc_threshold`
  is not met (i.e. positive) — in AND mode unconditionally, in OR mode
  provided `mad_threshold` is positive as well (with
  `mad_threshold = 0` the OR-mode threshold degenerates to 0, which an
  all-zero sequence meets; see the counterexample). -/
theorem find_peaks_degenerate (day_cc : List ℚ) (distance : ℕ) (cfg : MatchConfig)
    (n : ℕ) (hn : 1 ≤ n) :
    (find_peaks [] distance cfg = ⟨[], [], []⟩) ∧
    ((∀ i, i < day_cc.length →
        |day_cc.getD i 0| < localThreshold cfg (madWaterLevel day_cc)) →
      find_peaks day_cc distance cfg = ⟨[], [], []⟩) ∧
    (madWaterLevel (List.replicate n 0) = 1 / 1000000) ∧
    (cfg.combine_thresholds = true → 0 < cfg.cc_threshold →
      find_peaks (List.replicate n 0) distance cfg = ⟨[], [], []⟩) ∧
    (cfg.combine_thresholds = false → 0 < cfg.cc_threshold → 0 < cfg.mad_threshold →
      find_peaks (List.replicate n 0) distance cfg = ⟨[], [], []⟩) := by
  refine ⟨?_, find_peaks_empty_of_below day_cc distance cfg,
    madWaterLevel_replicate_zero n, ?_, ?_⟩
  · exact find_peaks_empty_of_below [] distance cfg (by intro i hi; simp at hi)
  · intro hc hpos
    apply find_peaks_empty_of_below
    intro i hi
    rw [getD_replicate_zero, abs_zero, localThreshold, hc, if_pos rfl]
    exact lt_max_of_lt_left hpos
  · intro hc hpos hmad
    apply find_peaks_empty_of_below
    intro i hi
    rw [getD_replicate_zero, abs_zero, localThreshold, hc]
    simp only [Bool.false_eq_true, if_false, lt_min_iff]
    constructor
    · exact hpos
    · rw [madWaterLevel_replicate_zero]
      positivity

/-- C8 (witness): the degenerate statements applied at the all-zero
sequence of length 3, AND mode, `cc_threshold = 1/2`. -/
theorem find_peaks_degenerate_witness :
    (find_peaks [] 2 ⟨1/2, 1, true⟩ = ⟨[], [], []⟩) ∧
    ((∀ i, i < ([5] : List ℚ).length →
        |([5] : List ℚ).getD i 0| <
          localThreshold ⟨1/2, 1, true⟩ (madWaterLevel [5])) →
      find_peaks [5] 2 ⟨1/2, 1, true⟩ = ⟨[], [], []⟩) ∧
    (madWaterLevel (List.replicate 3 0) = 1 / 1000000) ∧
    ((⟨1/2, 1, true⟩ : MatchConfig).combine_thresholds = true →
      0 < (⟨1/2, 1, true⟩ : MatchConfig).cc_threshold →
      find_peaks (List.replicate 3 0) 2 ⟨1/2, 1, true⟩ = ⟨[], [], []⟩) ∧
    ((⟨1/2, 1, true⟩ : MatchConfig).combine_thresholds = false →
      0 < (⟨1/2, 1, true⟩ : MatchConfig).cc_threshold →
      0 < (⟨1/2, 1, true⟩ : MatchConfig).mad_threshold →
      find_peaks (List.replicate 3 0) 2 ⟨1/2, 1, true⟩ = ⟨[], [], []⟩) :=
  find_peaks_degenerate [5] 2 ⟨1/2, 1, true⟩ 3 (by decide)

/-- C8 (counterexample): in OR mode with `mad_threshold = 0` the
effective threshold of an all-zero sequence is
`min(cc_threshold, 0 · 1e-6) = 0`, which `|0| ≥ 0` meets, so a
detection at lag 0 with correlation 0 is emitted even though
`cc_threshold = 1/2` is not met: the detection list is *not* empty. -/
theorem all_zero_or_mode_detection :
    find_peaks (List.replicate 5 0) 2 ⟨1/2, 0, false⟩ = ⟨[0], [0], [0]⟩ := by
  simp only [find_peaks, peaksFromMarks, List.replicate]
  norm_num [madWaterLevel, npMedian, sortAsc, insertAsc, localThreshold]
  repeat (first
    | (rw [runScan]; norm_num)
    | (rw [peaksScan]; norm_num))
  norm_num [exclusionPass, trueLags, sortDescByKey, insertDescBy, pySliceClear,
    List.range_succ, madWaterLevel, npMedian, sortAsc, insertAsc]


/-! ## SpectralCorrelator: `TemplateMatcher.matrix_cc`

The spectral part of `matrix_cc` (lines 300-320) computes, for one
(template, data) pair, the circular correlation via FFT — multiply the
conjugated, reversed template spectrum (`temp_fft`, lines 144-146) with
the data spectrum, inverse-transform, take the real part, and keep the
first `M - N + 1` samples.  For real inputs and FFT length `≥ M` (the
data is zero padded to `cc_len ≥ M`, so no circular wrap reaches the
retained lags) this equals the sliding inner product of the template
with the data window at each lag, which is how `ccRaw` embeds it; the
square roots taken on lines 322 and 324 are handled by an explicit
square-root parameter `sqrtFn` (for `cp.sqrt`) and by an exact rational
restatement of the comparison against `(eps * N) ** .5`. -/

/-- Machine epsilon of the dtype of `norm` on line 324:
`cp.finfo(norm.dtype).eps`.  `read_bulk_data` builds the data and
template arrays as float32 (`data_handling.py`, lines 255, 260, 275,
and `filter_trace` re-casts to float32 on line 298), so `data_norm`
(a float32 trace squared and convolved with an int16 ones kernel) and
`norm = data_norm * cp.sum(temp_tr ** 2)` are float32, whose machine
epsilon is `np.finfo(np.float32).eps = 2⁻²³`. -/
def machineEps : ℚ := 1 / 2 ^ 23

/-- Divide all factors `p` out of `n`; the first argument is fuel,
sufficient whenever it starts at `n` because `n / p < n` for `p ≥ 2`. -/
def stripFactorGo (p : ℕ) : ℕ → ℕ → ℕ
  | 0, n => n
  | fuel + 1, n => if 2 ≤ p ∧ n % p = 0 ∧ n ≠ 0 then stripFactorGo p fuel (n / p) else n

/-- All factors `p` removed from `n`. -/
def stripFactor (p n : ℕ) : ℕ := stripFactorGo p n n

/-- `n` is 5-smooth (a "regular" number): no prime factor beyond 5. -/
def is5smooth (n : ℕ) : Bool := stripFactor 5 (stripFactor 3 (stripFactor 2 n)) = 1

/-- Fuelled linear search for the next 5-smooth number at or above `k`. -/
def nextFastSearch : ℕ → ℕ → ℕ
  | 0, k => k
  | fuel + 1, k => if is5smooth k then k else nextFastSearch fuel (k + 1)

/-- `scipy.fftpack.next_fast_len(n)`: the smallest 5-smooth integer
`≥ n` (a power of two lies in `[n, 2n]`, so fuel `n + 1` always
suffices to reach one). -/
def next_fast_len (n : ℕ) : ℕ := nextFastSearch (n + 1) n

/-- `max(data_len)` over a list of lengths (`matrix_cc` is never handed
an empty data chunk; the empty case is mapped to 0). -/
def maxList (l : List ℕ) : ℕ := l.foldr max 0

/-- The raw (unnormalised) cross-correlation sequence of one pair
(lines 300-320 up to the normalisation): entry `k ∈ [0, M-N]` is the
inner product of the length-`N` template with the data window starting
at sample `k`. -/
def ccRaw (temp data : List ℚ) (N : ℕ) : List ℚ :=
  (List.range (data.length + 1 - N)).map
    (fun k => ∑ j ∈ Finset.range N, temp.getD j 0 * data.getD (k + j) 0)

/-- `cp.sum(temp_tr ** 2)` (line 321): the template energy. -/
def tempEnergy (temp : List ℚ) (N : ℕ) : ℚ :=
  ∑ j ∈ Finset.range N, (temp.getD j 0) ^ 2

/-- Line 324: `mask = data_norm <= (cp.finfo(norm.dtype).eps * N) ** .5`
for one entry `d` of `data_norm`.  Since `√(eps·N) ≥ 0`, the real
comparison `d ≤ √(eps·N)` holds iff `d ≤ 0` or `d² ≤ eps·N`, which is
the exact rational form used here. -/
def energyMasked (d : ℚ) (N : ℕ) : Bool :=
  decide (d ≤ 0) || decide (d ^ 2 ≤ machineEps * N)

/-- Lines 321-330 for one lag, float branch (`cc.dtype == float` holds:
`cc = cp.real(...)` is float64): `cc[~mask] /= norm[~mask]` — an
entry whose `data_norm` value `d` is masked keeps its raw value, an
unmasked entry is divided by `norm = sqrt(d * sum(temp ** 2))`. -/
def normalizeEntry (sqrtFn : ℚ → ℚ) (tEnergy : ℚ) (N : ℕ) (raw d : ℚ) : ℚ :=
  if energyMasked d N then raw else raw / sqrtFn (d * tEnergy)

/-- The normalised correlation sequence of one pair (lines 312-330). -/
def normalizedCC (sqrtFn : ℚ → ℚ) (temp data : List ℚ) (N : ℕ) : List ℚ :=
  List.zipWith (normalizeEntry sqrtFn (tempEnergy temp N) N)
    (ccRaw temp data N) (dataNormSeq data N)

/-- Lines 332-337: an entry with `|cc| > 1.01` is zeroed (with a
data-quality warning printed). -/
def clipEntry (c : ℚ) : ℚ := if 101 / 100 < |c| then 0 else c

/-- The correlation sequence `matrix_cc` hands to `find_peaks` for one
(template, data) pair: normalisation followed by the `1.01` clip. -/
def pairCC (sqrtFn : ℚ → ℚ) (temp data : List ℚ) (N : ℕ) : List ℚ :=
  (normalizedCC sqrtFn temp data N).map clipEntry

/-- One detection row as appended by `process_matches` (lines 276-281):
template index within the chunk, start time `t_data[j]` of the data
trace, peak lag, correlation value, MAD-normalised value.  The
amplitude ratio is computed per accepted peak for export only and never
affects acceptance; it is omitted. -/
structure Detection where
  tempIdx : ℕ
  dataStart : ℚ
  lag : ℕ
  cc : ℚ
  mad : ℚ

/-- Lines 339-346 for one pair: run `find_peaks` on the pair's
correlation sequence with `distance = N` and turn the returned triple
into detection rows. -/
def pairDetections (sqrtFn : ℚ → ℚ) (cfg : MatchConfig) (i : ℕ) (temp : List ℚ)
    (tStart : ℚ) (data : List ℚ) (N : ℕ) : List Detection :=
  ((find_peaks (pairCC sqrtFn temp data N) N cfg).tops.zip
    ((find_peaks (pairCC sqrtFn temp data N) N cfg).cc_values.zip
      (find_peaks (pairCC sqrtFn temp data N) N cfg).mad_values)).map
    (fun q => ⟨i, tStart, q.1, q.2.1, q.2.2⟩)

/-- `TemplateMatcher.matrix_cc` (lines 284-348), as the list of
detections it appends.  `templates` is the chunk of template rows (all
of length `N = templates.shape[1]`), `dataPairs` the data traces with
their start times `t_data`.  `N > cc_len` prints a message and returns
0 detections (lines 296-298); a pair with `M < N` is skipped by the
`continue` on lines 310-311. -/
def matrix_cc (sqrtFn : ℚ → ℚ) (cfg : MatchConfig) (templates : List (List ℚ))
    (dataPairs : List (List ℚ × ℚ)) : List Detection :=
  if (templates.headD []).length >
      next_fast_len (maxList (dataPairs.map (fun p => p.1.length))) then []
  else
    dataPairs.flatMap (fun p =>
      if p.1.length < (templates.headD []).length then []
      else templates.enum.flatMap (fun q =>
        pairDetections sqrtFn cfg q.1 q.2 p.2 p.1 (templates.headD []).length))


/-! ### Claims about the correlator -/

lemma machineEps_pos : (0 : ℚ) < machineEps := by norm_num [machineEps]

lemma windowEnergy_nonneg (data : List ℚ) (N k : ℕ) : 0 ≤ windowEnergy data N k :=
  Finset.sum_nonneg (fun j _ => sq_nonneg _)

lemma getD_zipWith_of_lt (f : ℚ → ℚ → ℚ) (a b : List ℚ) (k : ℕ)
    (ha : k < a.length) (hb : k < b.length) :
    (List.zipWith f a b).getD k 0 = f (a.getD k 0) (b.getD k 0) := by
  rw [List.getD_eq_getElem?_getD, List.getElem?_zipWith,
    List.getElem?_eq_getElem ha, List.getElem?_eq_getElem hb,
    List.getD_eq_getElem?_getD, List.getElem?_eq_getElem ha,
    List.getD_eq_getElem?_getD, List.getElem?_eq_getElem hb]
  rfl

/-- C1 (amended): in `matrix_cc`'s normalisation of a real correlation
sequence, a lag whose local window energy `e` satisfies
`e ≤ √(machineEps · N)` — the code's mask `data_norm <= (eps * N) ** .5`,
stated rationally as `e² ≤ eps · N` (the energy is nonnegative) — is
*excluded from the division and keeps its raw, unnormalised correlation
value* (it is not forced to 0), and a division is performed only at
lags whose energy lies strictly above this floor, with denominator
`sqrt(e · templateEnergy)`. -/
theorem energy_floor_masking (sqrtFn : ℚ → ℚ) (temp data : List ℚ) (N k : ℕ)
    (hN : 1 ≤ N) (hNM : N ≤ data.length) (hk : k ≤ data.length - N) :
    (windowEnergy data N k ^ 2 ≤ machineEps * N →
      (normalizedCC sqrtFn temp data N).getD k 0 = (ccRaw temp data N).getD k 0) ∧
    (machineEps * N < windowEnergy data N k ^ 2 →
      (normalizedCC sqrtFn temp data N).getD k 0 =
        (ccRaw temp data N).getD k 0 /
          sqrtFn (windowEnergy data N k * tempEnergy temp N)) := by
  have hlenc : k < (ccRaw temp data N).length := by
    rw [ccRaw, List.length_map, List.length_range]; omega
  have hlend : k < (dataNormSeq data N).length := by
    rw [dataNormSeq_length data N hN hNM]; omega
  have hz := getD_zipWith_of_lt (normalizeEntry sqrtFn (tempEnergy temp N) N)
    (ccRaw temp data N) (dataNormSeq data N) k hlenc hlend
  have hd := dataNormSeq_getD data N k hN hNM hk
  constructor
  · intro hmask
    rw [normalizedCC, hz, hd, normalizeEntry, if_pos]
    rw [energyMasked]
    simp only [Bool.or_eq_true, decide_eq_true_eq]
    exact Or.inr hmask
  · intro hmask
    rw [normalizedCC, hz, hd, normalizeEntry, if_neg]
    rw [energyMasked]
    simp only [Bool.or_eq_true, decide_eq_true_eq, not_or, not_le]
    have hnn : 0 ≤ windowEnergy data N k := windowEnergy_nonneg data N k
    have hepsN : 0 ≤ machineEps * (N : ℚ) :=
      mul_nonneg machineEps_pos.le (Nat.cast_nonneg N)
    constructor
    · rcases lt_or_eq_of_le hnn with h | h
      · exact h
      · exfalso
        rw [← h] at hmask
        norm_num at hmask
        exact absurd hmask (not_lt.2 hepsN)
    · exact hmask

/-- Exact square root of a natural number when it is a perfect square
(largest `s` with `s² ≤ m`, by bounded linear search). -/
def natSqrtLin (m : ℕ) : ℕ :=
  (((List.range (m + 2)).filter (fun s => s * s ≤ m)).foldr max 0)

/-- A concrete stand-in for `cp.sqrt`, exact on rationals whose
numerator and denominator are perfect squares — which is the case at
every input the witnesses below evaluate it on. -/
def ratSqrt (x : ℚ) : ℚ := (natSqrtLin x.num.toNat : ℚ) / (natSqrtLin x.den : ℚ)

lemma ratSqrt_one : ratSqrt 1 = 1 := by
  rw [ratSqrt, Rat.num_one, Rat.den_one]
  norm_num [show natSqrtLin 1 = 1 from by decide]

/-- C1 (counterexample): with template `[1]` (`N = 1`) and data
`[2⁻³⁰, 1]`, the window at lag 0 has energy `2⁻⁶⁰`, below the claim's
floor `√(machineEps) · N` — since the energy is nonnegative,
`energy < √(machineEps) · N` is stated exactly as
`energy² < machineEps · N²` — yet the correlation sequence built by
`matrix_cc` carries the *raw value* `2⁻³⁰ ≠ 0` at that lag: the masked
lag is exempted from division (float branch,
`cc[~mask] /= norm[~mask]`), not forced to zero. -/
theorem masked_lag_not_zeroed :
    windowEnergy [1/2^30, 1] 1 0 ^ 2 < machineEps * (1 : ℚ) ^ 2 ∧
    (pairCC ratSqrt [1] [1/2^30, 1] 1).getD 0 0 = 1/2^30 ∧
    (1/2^30 : ℚ) ≠ 0 := by
  refine ⟨?_, ?_, by norm_num⟩
  · rw [windowEnergy]
    norm_num [Finset.sum_range_one, machineEps]
  · norm_num [pairCC, normalizedCC, ccRaw, dataNormSeq, window_sum, convolveOnesValid,
      pad_zeros, normalizeEntry, energyMasked, tempEnergy, clipEntry, machineEps,
      Finset.sum_range_one, List.range_succ, List.getD_cons_zero]
    rw [abs_of_pos (by norm_num)]
    norm_num

/-- C1 (witness): the amended statement applied at `sqrtFn = ratSqrt`,
template `[1]`, data `[2⁻³⁰, 1]`, lag 0. -/
theorem energy_floor_masking_witness :
    (windowEnergy [1/2^30, 1] 1 0 ^ 2 ≤ machineEps * 1 →
      (normalizedCC ratSqrt [1] [1/2^30, 1] 1).getD 0 0 =
        (ccRaw [1] [1/2^30, 1] 1).getD 0 0) ∧
    (machineEps * 1 < windowEnergy [1/2^30, 1] 1 0 ^ 2 →
      (normalizedCC ratSqrt [1] [1/2^30, 1] 1).getD 0 0 =
        (ccRaw [1] [1/2^30, 1] 1).getD 0 0 /
          ratSqrt (windowEnergy [1/2^30, 1] 1 0 * tempEnergy [1] 1)) :=
  energy_floor_masking ratSqrt [1] [1/2^30, 1] 1 0 (by decide) (by decide) (by decide)


lemma abs_clipEntry_le (c : ℚ) : |clipEntry c| ≤ 101 / 100 := by
  rw [clipEntry]
  split
  · norm_num
  · rename_i h
    exact le_of_not_lt h

lemma abs_getD_map_clip (l : List ℚ) (i : ℕ) :
    |(l.map clipEntry).getD i 0| ≤ 101 / 100 := by
  by_cases hi : i < l.length
  · rw [getD_map_of_lt clipEntry l i 0 0 hi]
    exact abs_clipEntry_le _
  · rw [List.getD_eq_default _ _ (by rw [List.length_map]; omega)]
    norm_num

lemma mem_cc_values_imp (day_cc : List ℚ) (distance : ℕ) (cfg : MatchConfig) (v : ℚ)
    (h : v ∈ (find_peaks day_cc distance cfg).cc_values) :
    ∃ i, v = day_cc.getD i 0 := by
  rw [find_peaks, peaksFromMarks] at h
  simp only at h
  rcases List.mem_map.1 h with ⟨i, _, hv⟩
  exact ⟨i, hv.symm⟩

/-- C4: the `1.01` safety clip of `matrix_cc` — an entry whose absolute
value exceeds `1.01` is zeroed (and a data-quality warning printed)
before peak detection runs; consequently every per-pair correlation
sequence handed to `find_peaks` is bounded by `1.01` in absolute value
at every position, and every detection emitted by `matrix_cc` carries
`|cc| ≤ 1.01`. -/
theorem clipped_cc_bound (sqrtFn : ℚ → ℚ) (cfg : MatchConfig)
    (templates : List (List ℚ)) (dataPairs : List (List ℚ × ℚ)) :
    (∀ c, 101 / 100 < |c| → clipEntry c = 0) ∧
    (∀ temp data N i, |(pairCC sqrtFn temp data N).getD i 0| ≤ 101 / 100) ∧
    (∀ det, det ∈ matrix_cc sqrtFn cfg templates dataPairs → |det.cc| ≤ 101 / 100) := by
  refine ⟨?_, ?_, ?_⟩
  · intro c hc
    rw [clipEntry, if_pos hc]
  · intro temp data N i
    rw [pairCC]
    exact abs_getD_map_clip _ _
  · intro det hdet
    rw [matrix_cc] at hdet
    split at hdet
    · exact absurd hdet (List.not_mem_nil det)
    · rcases List.mem_flatMap.1 hdet with ⟨p, hp, hinner⟩
      split at hinner
      · exact absurd hinner (List.not_mem_nil det)
      · rcases List.mem_flatMap.1 hinner with ⟨q, hq, hpd⟩
        rw [pairDetections] at hpd
        rcases List.mem_map.1 hpd with ⟨z, hz, hdet2⟩
        have hz1 := List.of_mem_zip hz
        have hz2 := List.of_mem_zip hz1.2
        have hcc : det.cc = z.2.1 := by rw [← hdet2]
        rcases mem_cc_values_imp _ _ _ _ hz2.1 with ⟨i, hv⟩
        rw [hcc, hv, pairCC]
        exact abs_getD_map_clip _ _

/-- C4 (witness): the statement applied to `sqrtFn = ratSqrt`, one
template `[1]` and one data trace `[0, 0, 1]`; `matrix_cc` emits the
detection `(template 0, start 0, lag 2, cc 1, mad 10⁶)`, whose
correlation value is within the `1.01` bound. -/
theorem clipped_cc_bound_witness :
    |(⟨0, 0, 2, 1, 1000000⟩ : Detection).cc| ≤ 101 / 100 :=
  (clipped_cc_bound ratSqrt ⟨1/2, 1, true⟩ [[1]] [([0, 0, 1], 0)]).2.2
    ⟨0, 0, 2, 1, 1000000⟩ (by
      have hnext : next_fast_len 3 = 3 := by decide
      have hpair : pairCC ratSqrt [1] [0, 0, 1] 1 = [0, 0, 1] := by
        norm_num [pairCC, normalizedCC, ccRaw, dataNormSeq, window_sum,
          convolveOnesValid, pad_zeros, normalizeEntry, energyMasked, tempEnergy,
          clipEntry, machineEps, ratSqrt_one, Finset.sum_range_one, List.range_succ]
      have hfp : find_peaks [0, 0, 1] 1 ⟨1/2, 1, true⟩ = ⟨[2], [1], [1000000]⟩ := by
        simp only [find_peaks, peaksFromMarks]
        norm_num [madWaterLevel, npMedian, sortAsc, insertAsc, localThreshold,
          List.replicate]
        repeat (first
          | (rw [runScan]; norm_num)
          | (rw [peaksScan]; norm_num))
        norm_num [exclusionPass, trueLags, sortDescByKey, insertDescBy, pySliceClear,
          List.range_succ, madWaterLevel, npMedian, sortAsc, insertAsc]
      norm_num [matrix_cc, maxList, hnext, pairDetections, hpair, hfp, List.enum]
      simp)


lemma maxList_le (l : List ℕ) (b : ℕ) (h : ∀ x ∈ l, x ≤ b) : maxList l ≤ b := by
  induction l with
  | nil => simp [maxList]
  | cons a rest ih =>
    rw [maxList, List.foldr_cons,
      show List.foldr max 0 rest = maxList rest from rfl]
    exact max_le (h a (by simp)) (ih (fun x hx => h x (by simp [hx])))

lemma le_maxList (l : List ℕ) (x : ℕ) (h : x ∈ l) : x ≤ maxList l := by
  induction l with
  | nil => simp at h
  | cons a rest ih =>
    rw [maxList, List.foldr_cons,
      show List.foldr max 0 rest = maxList rest from rfl]
    rcases List.mem_cons.1 h with rfl | h2
    · exact le_max_left _ _
    · exact le_trans (ih h2) (le_max_right _ _)

lemma flatMap_filter_eq {α β : Type} (P : α → Bool) (g : α → List β) (l : List α)
    (h : ∀ p ∈ l, P p = false → g p = []) :
    (l.filter P).flatMap g = l.flatMap g := by
  induction l with
  | nil => rfl
  | cons a rest ih =>
    rw [List.filter_cons]
    by_cases hP : P a = true
    · rw [if_pos hP, List.flatMap_cons, List.flatMap_cons,
        ih (fun p hp hPf => h p (by simp [hp]) hPf)]
    · have hPf : P a = false := by revert hP; cases P a <;> simp
      rw [if_neg hP, List.flatMap_cons, h a (by simp) hPf, List.nil_append,
        ih (fun p hp hPg => h p (by simp [hp]) hPg)]

/-- C7: data traces shorter than the template length contribute nothing
and disturb nothing: `matrix_cc` on the chunk with every short trace
removed returns exactly the detections of `matrix_cc` on the full
chunk — each short pair is skipped (`continue`, no exception), while
every other pair is processed identically. -/
theorem short_data_pairs_skipped (sqrtFn : ℚ → ℚ) (cfg : MatchConfig)
    (templates : List (List ℚ)) (dataPairs : List (List ℚ × ℚ)) :
    matrix_cc sqrtFn cfg templates
      (dataPairs.filter (fun p => (templates.headD []).length ≤ p.1.length)) =
    matrix_cc sqrtFn cfg templates dataPairs := by
  rw [matrix_cc, matrix_cc]
  by_cases hex : ∃ p ∈ dataPairs, (templates.headD []).length ≤ p.1.length
  · have hmax :
        maxList (((dataPairs.filter
            (fun p => (templates.headD []).length ≤ p.1.length)).map
          (fun p => p.1.length))) =
        maxList (dataPairs.map (fun p => p.1.length)) := by
      rcases hex with ⟨p0, hp0, hlen0⟩
      apply le_antisymm
      · apply maxList_le
        intro x hx
        rcases List.mem_map.1 hx with ⟨p, hp, rfl⟩
        exact le_maxList _ _ (List.mem_map.2 ⟨p, (List.mem_filter.1 hp).1, rfl⟩)
      · apply maxList_le
        intro x hx
        rcases List.mem_map.1 hx with ⟨p, hp, rfl⟩
        by_cases hPp : (templates.headD []).length ≤ p.1.length
        · exact le_maxList _ _
            (List.mem_map.2 ⟨p, List.mem_filter.2
              ⟨hp, by simp only [decide_eq_true_eq]; exact hPp⟩, rfl⟩)
        · exact le_trans (by omega)
            (le_maxList _ _
              (List.mem_map.2 ⟨p0, List.mem_filter.2
                ⟨hp0, by simp only [decide_eq_true_eq]; exact hlen0⟩, rfl⟩))
    rw [hmax]
    split
    · rfl
    · apply flatMap_filter_eq
      intro p hp hPf
      rw [if_pos]
      simp only [decide_eq_false_iff_not, not_le] at hPf
      exact hPf
  · push_neg at hex
    have hfil : dataPairs.filter
        (fun p => (templates.headD []).length ≤ p.1.length) = [] := by
      rw [List.filter_eq_nil_iff]
      intro p hp
      simp only [decide_eq_true_eq, not_le]
      exact hex p hp
    have hall : dataPairs.flatMap (fun p =>
        if p.1.length < (templates.headD []).length then []
        else templates.enum.flatMap (fun q =>
          pairDetections sqrtFn cfg q.1 q.2 p.2 p.1 (templates.headD []).length)) = [] := by
      have h2 := flatMap_filter_eq
        (fun p => decide ((templates.headD []).length ≤ p.1.length))
        (fun p =>
          if p.1.length < (templates.headD []).length then []
          else templates.enum.flatMap (fun q =>
            pairDetections sqrtFn cfg q.1 q.2 p.2 p.1 (templates.headD []).length))
        dataPairs
        (fun p hp hPf => by
          simp only [decide_eq_false_iff_not, not_le] at hPf
          exact if_pos hPf)
      rw [hfil] at h2
      exact h2.symm
    rw [hfil, hall]
    split <;> split <;> simp


/-! ## Orchestrator: the batch loop of `match_templates` (lines 102-209)

The loop is modelled over a grid of `nd` data items and `nt` template
items identified by their indices (the code identifies them by file
path); the waveforms themselves are abstracted: `dlen i` is the length
of data trace `i` (it only feeds the FFT-length bookkeeping), and the
compute step records the processed (data index, template index) pairs
in place of the detections `matrix_cc` would append for them — per
pair, `matrix_cc` is a pure function of that pair alone, so the set of
recorded pairs determines the set of emitted detections.  `oom k`
tells whether the `k`-th iteration of the `while True` loop raises
`cp.cuda.memory.OutOfMemoryError` (in which case the iteration has no
effect other than the recovery of lines 180-198; detections partially
written before a failure are re-written when the chunk is retried,
which changes multiplicities but not the set).  Waveform reads are
assumed to succeed (`data_st is not None`). -/

/-- The identity of the slice `items[lo : lo+n]` out of `total` items:
the index interval `[lo, min(lo+n, total))`. -/
def sliceIdx (lo n total : ℕ) : List ℕ := List.range' lo (min n (total - lo))

/-- `cc_len = next_fast_len(max(data_len))` (lines 119-120). -/
def ccLenOf (dlen : ℕ → ℕ) (slice : List ℕ) : ℕ :=
  next_fast_len (maxList (slice.map dlen))

/-- The loop state: data pointer `di`, template pointer `ti`, chunk
size `N_MAX`, the identities of the cached data and template chunks
(`data` and `templates`, lines 104 and 113-134; `[]` when empty), the
current FFT length `cc_len`, and the processed pairs. -/
structure OrchSt where
  di : ℕ
  ti : ℕ
  nmax : ℕ
  dataCache : List ℕ
  tempCache : List ℕ
  ccLen : ℕ
  dets : List (ℕ × ℕ)
deriving DecidableEq

/-- Loop outcome: normal break at line 166, or fatal termination (an
uncaught `ZeroDivisionError` from `find_optimal_chunksize(0, ·)` inside
the handler — the `sys.exit(1)` on line 192 is unreachable — which no
caller catches, so the process dies with a non-zero status). -/
inductive OrchOut
  | done (dets : List (ℕ × ℕ))
  | fatal (dets : List (ℕ × ℕ))
deriving DecidableEq

/-- Lines 113-129: reload the data chunk when its identity differs from
the requested slice; recompute `cc_len` and drop the template cache if
the FFT length changed (lines 120-124). -/
def loadData (dlen : ℕ → ℕ) (nd : ℕ) (st : OrchSt) : OrchSt :=
  if st.dataCache ≠ sliceIdx st.di st.nmax nd then
    { st with dataCache := sliceIdx st.di st.nmax nd,
              ccLen := ccLenOf dlen (sliceIdx st.di st.nmax nd),
              tempCache := if ccLenOf dlen (sliceIdx st.di st.nmax nd) ≠ st.ccLen then []
                           else st.tempCache }
  else st

/-- Lines 132-146: reload the template chunk when the cache is empty or
its first item is not `all_templates[ti]`. -/
def loadTemps (nt : ℕ) (st : OrchSt) : OrchSt :=
  if st.tempCache = [] ∨ st.tempCache.headD nt ≠ st.ti then
    { st with tempCache := sliceIdx st.ti st.nmax nt }
  else st

/-- One iteration of the `while True` loop (lines 109-203).
* OOM (lines 180-198): `N_MAX -= 1`, re-balance against the remaining
  data, clear both cache identities, keep both pointers; capacity 0
  makes the re-balance itself raise (fatal).
* Otherwise: reload the data chunk if its identity changed, reload the
  template chunk if needed, process the cached data chunk against the
  cached template chunk (line 149), then advance the template pointer,
  and the data pointer once all templates are done, breaking when the
  data is exhausted (lines 159-168). -/
def orchStep (dlen : ℕ → ℕ) (nd nt : ℕ) (oom : Bool) (st : OrchSt) : OrchSt ⊕ OrchOut :=
  if oom then
    match find_optimal_chunksize (st.nmax - 1) (nd - st.di) with
    | none => Sum.inr (OrchOut.fatal st.dets)
    | some n' =>
      if n' = 0 then Sum.inr (OrchOut.fatal st.dets)
      else Sum.inl { st with nmax := n', dataCache := [], tempCache := [] }
  else
    let st2 := loadTemps nt (loadData dlen nd st)
    let st3 := { st2 with dets := st2.dets ++
      st2.dataCache.flatMap (fun d => st2.tempCache.map (fun t => (d, t))) }
    if st.ti + st.nmax ≥ nt then
      if st.di + st.nmax ≥ nd then Sum.inr (OrchOut.done st3.dets)
      else Sum.inl { st3 with ti := 0, di := st.di + st.nmax }
    else Sum.inl { st3 with ti := st.ti + st.nmax }

/-- The `while True` loop (line 109), with fuel (one unit per
iteration; the loop terminates on every schedule with finitely many
failures, so a completed run is one that returns before the fuel runs
out). -/
def orchRun (dlen : ℕ → ℕ) (nd nt : ℕ) (oom : ℕ → Bool) :
    ℕ → ℕ → OrchSt → Option OrchOut
  | 0, _, _ => none
  | fuel + 1, k, st =>
    match orchStep dlen nd nt (oom k) st with
    | Sum.inl st' => orchRun dlen nd nt oom fuel (k + 1) st'
    | Sum.inr out => some out

/-- Lines 102-106: both pointers at 0, no caches, `cc_len = 0`. -/
def orchInit (nmax0 : ℕ) : OrchSt := ⟨0, 0, nmax0, [], [], 0, []⟩

lemma mem_sliceIdx (lo n total x : ℕ) :
    x ∈ sliceIdx lo n total ↔ lo ≤ x ∧ x < lo + n ∧ x < total := by
  rw [sliceIdx, List.mem_range'_1]
  omega

lemma sliceIdx_headD (lo n total : ℕ) (hlo : lo < total) (hn : 1 ≤ n) :
    (sliceIdx lo n total).headD nt = lo := by
  rw [sliceIdx]
  have h : min n (total - lo) = (min n (total - lo) - 1) + 1 := by omega
  rw [h, List.range'_succ]
  rfl

lemma mem_pairs_iff (A B : List ℕ) (d t : ℕ) :
    (d, t) ∈ A.flatMap (fun a => B.map (fun b => (a, b))) ↔ d ∈ A ∧ t ∈ B := by
  constructor
  · intro h
    rcases List.mem_flatMap.1 h with ⟨a, ha, hmap⟩
    rcases List.mem_map.1 hmap with ⟨b, hb, heq⟩
    obtain ⟨rfl, rfl⟩ := Prod.mk.inj heq
    exact ⟨ha, hb⟩
  · intro ⟨hd, ht⟩
    exact List.mem_flatMap.2 ⟨d, hd, List.mem_map.2 ⟨t, ht, rfl⟩⟩


/-- The loop invariant at the top of each iteration: pointers in range,
positive chunk size, a well-formed template cache (empty, or exactly
some slice for the current chunk size), detections within the grid, and
coverage of everything the loop has passed: all pairs with `d < di`,
and the pairs of the current data chunk with `t < ti`. -/
def OrchInv (nd nt : ℕ) (st : OrchSt) : Prop :=
  st.di < nd ∧ st.ti < nt ∧ 1 ≤ st.nmax ∧
  (st.tempCache = [] ∨ ∃ t0, t0 < nt ∧ st.tempCache = sliceIdx t0 st.nmax nt) ∧
  (∀ p ∈ st.dets, p.1 < nd ∧ p.2 < nt) ∧
  (∀ d t, d < nd → t < nt → d < st.di → (d, t) ∈ st.dets) ∧
  (∀ d t, d < nd → t < nt → st.di ≤ d → d < st.di + st.nmax → t < st.ti →
    (d, t) ∈ st.dets)

lemma find_optimal_chunksize_some_bounds (c N r : ℕ)
    (h : find_optimal_chunksize c N = some r) : 1 ≤ r ∧ r ≤ c := by
  rw [find_optimal_chunksize] at h
  split at h
  · exact absurd h (by simp)
  · rename_i hc
    dsimp only at h
    split at h
    · exact absurd h (by simp)
    · rename_i hit
      injection h with h
      subst h
      have hc0 : 0 < c := by omega
      have hN : 0 < N := by
        by_contra hN0
        push_neg at hN0
        have hN00 : N = 0 := by omega
        subst hN00
        simp [ceilPy] at hit
      refine ⟨ceilPy_pos N _ (by omega) hN, ?_⟩
      rw [ceilPy_le_iff N _ c (by omega), Nat.mul_comm]
      exact (ceilPy_le_iff N c (ceilPy N c) hc0).1 le_rfl

lemma loadData_di (dlen : ℕ → ℕ) (nd : ℕ) (st : OrchSt) :
    (loadData dlen nd st).di = st.di := by
  rw [loadData]; split <;> rfl

lemma loadData_ti (dlen : ℕ → ℕ) (nd : ℕ) (st : OrchSt) :
    (loadData dlen nd st).ti = st.ti := by
  rw [loadData]; split <;> rfl

lemma loadData_nmax (dlen : ℕ → ℕ) (nd : ℕ) (st : OrchSt) :
    (loadData dlen nd st).nmax = st.nmax := by
  rw [loadData]; split <;> rfl

lemma loadData_dets (dlen : ℕ → ℕ) (nd : ℕ) (st : OrchSt) :
    (loadData dlen nd st).dets = st.dets := by
  rw [loadData]; split <;> rfl

lemma loadData_dataCache (dlen : ℕ → ℕ) (nd : ℕ) (st : OrchSt) :
    (loadData dlen nd st).dataCache = sliceIdx st.di st.nmax nd := by
  rw [loadData]
  split
  · rfl
  · rename_i h
    push_neg at h
    exact h

lemma loadData_tempCache (dlen : ℕ → ℕ) (nd nt : ℕ) (st : OrchSt)
    (h : st.tempCache = [] ∨ ∃ t0, t0 < nt ∧ st.tempCache = sliceIdx t0 st.nmax nt) :
    (loadData dlen nd st).tempCache = [] ∨
      ∃ t0, t0 < nt ∧ (loadData dlen nd st).tempCache = sliceIdx t0 st.nmax nt := by
  rw [loadData]
  split
  · simp only
    split
    · exact Or.inl rfl
    · exact h
  · exact h

lemma loadTemps_di (nt : ℕ) (st : OrchSt) : (loadTemps nt st).di = st.di := by
  rw [loadTemps]; split <;> rfl

lemma loadTemps_ti (nt : ℕ) (st : OrchSt) : (loadTemps nt st).ti = st.ti := by
  rw [loadTemps]; split <;> rfl

lemma loadTemps_nmax (nt : ℕ) (st : OrchSt) : (loadTemps nt st).nmax = st.nmax := by
  rw [loadTemps]; split <;> rfl

lemma loadTemps_dets (nt : ℕ) (st : OrchSt) : (loadTemps nt st).dets = st.dets := by
  rw [loadTemps]; split <;> rfl

lemma loadTemps_dataCache (nt : ℕ) (st : OrchSt) :
    (loadTemps nt st).dataCache = st.dataCache := by
  rw [loadTemps]; split <;> rfl

lemma loadTemps_tempCache (nt : ℕ) (st : OrchSt)
    (hw : st.tempCache = [] ∨ ∃ t0, t0 < nt ∧ st.tempCache = sliceIdx t0 st.nmax nt)
    (hti : st.ti < nt) (hnm : 1 ≤ st.nmax) :
    (loadTemps nt st).tempCache = sliceIdx st.ti st.nmax nt := by
  rw [loadTemps]
  split
  · rfl
  · rename_i h
    push_neg at h
    obtain ⟨hne, hhead⟩ := h
    rcases hw with hw | ⟨t0, ht0, hw⟩
    · exact absurd hw hne
    · rw [hw] at hhead
      rw [sliceIdx_headD t0 st.nmax nt ht0 hnm] at hhead
      rw [hw, hhead]


lemma orchStep_inl_inv (dlen : ℕ → ℕ) (nd nt : ℕ) (oomb : Bool) (st st' : OrchSt)
    (hinv : OrchInv nd nt st)
    (hstep : orchStep dlen nd nt oomb st = Sum.inl st') :
    OrchInv nd nt st' := by
  unfold OrchInv at hinv
  obtain ⟨h1, h2, h3, h4, h5, h6, h7⟩ := hinv
  unfold OrchInv
  cases oomb with
  | true =>
    rw [orchStep, if_pos rfl] at hstep
    cases hb : find_optimal_chunksize (st.nmax - 1) (nd - st.di) with
    | none =>
      rw [hb] at hstep
      exact absurd hstep (by simp)
    | some n' =>
      rw [hb] at hstep
      dsimp only at hstep
      split at hstep
      · exact absurd hstep (by simp)
      · injection hstep with hstep
        subst hstep
        obtain ⟨hr1, hr2⟩ := find_optimal_chunksize_some_bounds _ _ _ hb
        dsimp only
        refine ⟨h1, h2, hr1, Or.inl rfl, h5, h6, ?_⟩
        intro d t hd ht hdi hdn hti
        exact h7 d t hd ht hdi (by omega) hti
  | false =>
    rw [orchStep, if_neg (by simp)] at hstep
    dsimp only at hstep
    have hA : (loadTemps nt (loadData dlen nd st)).dataCache
        = sliceIdx st.di st.nmax nd := by
      rw [loadTemps_dataCache, loadData_dataCache]
    have hw' := loadData_tempCache dlen nd nt st h4
    have hB : (loadTemps nt (loadData dlen nd st)).tempCache
        = sliceIdx st.ti st.nmax nt := by
      have hh := loadTemps_tempCache nt (loadData dlen nd st)
        (by rw [loadData_nmax]; exact hw')
        (by rw [loadData_ti]; exact h2)
        (by rw [loadData_nmax]; exact h3)
      rw [loadData_ti, loadData_nmax] at hh
      exact hh
    have hD : (loadTemps nt (loadData dlen nd st)).dets = st.dets := by
      rw [loadTemps_dets, loadData_dets]
    have hNM : (loadTemps nt (loadData dlen nd st)).nmax = st.nmax := by
      rw [loadTemps_nmax, loadData_nmax]
    have hDI2 : (loadTemps nt (loadData dlen nd st)).di = st.di := by
      rw [loadTemps_di, loadData_di]
    have hnew : (loadTemps nt (loadData dlen nd st)).dets ++
        (loadTemps nt (loadData dlen nd st)).dataCache.flatMap
          (fun d => (loadTemps nt (loadData dlen nd st)).tempCache.map (fun t => (d, t)))
        = st.dets ++ (sliceIdx st.di st.nmax nd).flatMap
            (fun d => (sliceIdx st.ti st.nmax nt).map (fun t => (d, t))) := by
      rw [hD, hA, hB]
    have hmemNew : ∀ d t : ℕ,
        (d, t) ∈ st.dets ++ (sliceIdx st.di st.nmax nd).flatMap
          (fun d => (sliceIdx st.ti st.nmax nt).map (fun t => (d, t))) ↔
        (d, t) ∈ st.dets ∨
          ((st.di ≤ d ∧ d < st.di + st.nmax ∧ d < nd) ∧
           (st.ti ≤ t ∧ t < st.ti + st.nmax ∧ t < nt)) := by
      intro d t
      rw [List.mem_append, mem_pairs_iff, mem_sliceIdx, mem_sliceIdx]
    split at hstep
    · rename_i hTI
      split at hstep
      · exact absurd hstep (by simp)
      · rename_i hDI
        push_neg at hDI
        injection hstep with hstep
        subst hstep
        dsimp only
        rw [hnew, hNM, hB]
        refine ⟨hDI, by omega, h3, Or.inr ⟨st.ti, h2, rfl⟩, ?_, ?_, ?_⟩
        · intro p hp
          rcases p with ⟨pd, pt⟩
          rcases (hmemNew pd pt).1 hp with hp | ⟨⟨_, _, hpd⟩, ⟨_, _, hpt⟩⟩
          · exact h5 _ hp
          · exact ⟨hpd, hpt⟩
        · intro d t hd ht hdlt
          rw [hmemNew]
          by_cases hdi : d < st.di
          · exact Or.inl (h6 d t hd ht hdi)
          · push_neg at hdi
            by_cases hti : t < st.ti
            · exact Or.inl (h7 d t hd ht hdi (by omega) hti)
            · push_neg at hti
              exact Or.inr ⟨⟨hdi, by omega, hd⟩, ⟨hti, by omega, ht⟩⟩
        · intro d t hd ht hdi hdn hti
          omega
    · rename_i hTI
      push_neg at hTI
      injection hstep with hstep
      subst hstep
      dsimp only
      rw [hnew, hNM, hB, hDI2]
      refine ⟨h1, hTI, h3, Or.inr ⟨st.ti, h2, rfl⟩, ?_, ?_, ?_⟩
      · intro p hp
        rcases p with ⟨pd, pt⟩
        rcases (hmemNew pd pt).1 hp with hp | ⟨⟨_, _, hpd⟩, ⟨_, _, hpt⟩⟩
        · exact h5 _ hp
        · exact ⟨hpd, hpt⟩
      · intro d t hd ht hdlt
        rw [hmemNew]
        exact Or.inl (h6 d t hd ht hdlt)
      · intro d t hd ht hdi hdn hti
        rw [hmemNew]
        by_cases htlt : t < st.ti
        · exact Or.inl (h7 d t hd ht hdi hdn htlt)
        · push_neg at htlt
          exact Or.inr ⟨⟨hdi, hdn, hd⟩, ⟨htlt, by omega, ht⟩⟩

lemma orchStep_done_grid (dlen : ℕ → ℕ) (nd nt : ℕ) (oomb : Bool) (st : OrchSt)
    (dets : List (ℕ × ℕ)) (hinv : OrchInv nd nt st)
    (hstep : orchStep dlen nd nt oomb st = Sum.inr (OrchOut.done dets)) :
    ∀ d t, (d, t) ∈ dets ↔ d < nd ∧ t < nt := by
  unfold OrchInv at hinv
  obtain ⟨h1, h2, h3, h4, h5, h6, h7⟩ := hinv
  cases oomb with
  | true =>
    rw [orchStep, if_pos rfl] at hstep
    cases hb : find_optimal_chunksize (st.nmax - 1) (nd - st.di) with
    | none =>
      rw [hb] at hstep
      exact absurd hstep (by simp)
    | some n' =>
      rw [hb] at hstep
      dsimp only at hstep
      split at hstep
      · exact absurd hstep (by simp)
      · exact absurd hstep (by simp)
  | false =>
    rw [orchStep, if_neg (by simp)] at hstep
    dsimp only at hstep
    have hA : (loadTemps nt (loadData dlen nd st)).dataCache
        = sliceIdx st.di st.nmax nd := by
      rw [loadTemps_dataCache, loadData_dataCache]
    have hw' := loadData_tempCache dlen nd nt st h4
    have hB : (loadTemps nt (loadData dlen nd st)).tempCache
        = sliceIdx st.ti st.nmax nt := by
      have hh := loadTemps_tempCache nt (loadData dlen nd st)
        (by rw [loadData_nmax]; exact hw')
        (by rw [loadData_ti]; exact h2)
        (by rw [loadData_nmax]; exact h3)
      rw [loadData_ti, loadData_nmax] at hh
      exact hh
    have hD : (loadTemps nt (loadData dlen nd st)).dets = st.dets := by
      rw [loadTemps_dets, loadData_dets]
    split at hstep
    · rename_i hTI
      split at hstep
      · rename_i hDI
        injection hstep with hstep
        injection hstep with hstep
        have hdets : dets = st.dets ++ (sliceIdx st.di st.nmax nd).flatMap
            (fun d => (sliceIdx st.ti st.nmax nt).map (fun t => (d, t))) := by
          rw [← hstep, hD, hA, hB]
        subst hdets
        intro d t
        rw [List.mem_append, mem_pairs_iff, mem_sliceIdx, mem_sliceIdx]
        constructor
        · intro h
          rcases h with h | ⟨⟨_, _, hd⟩, ⟨_, _, ht⟩⟩
          · exact h5 _ h
          · exact ⟨hd, ht⟩
        · intro ⟨hd, ht⟩
          by_cases hdi : d < st.di
          · exact Or.inl (h6 d t hd ht hdi)
          · push_neg at hdi
            by_cases hti : t < st.ti
            · exact Or.inl (h7 d t hd ht hdi (by omega) hti)
            · push_neg at hti
              exact Or.inr ⟨⟨hdi, by omega, hd⟩, ⟨hti, by omega, ht⟩⟩
      · exact absurd hstep (by simp)
    · exact absurd hstep (by simp)

lemma orchRun_done_grid (dlen : ℕ → ℕ) (nd nt : ℕ) (oom : ℕ → Bool)
    (fuel k : ℕ) (st : OrchSt) (dets : List (ℕ × ℕ))
    (hinv : OrchInv nd nt st)
    (hrun : orchRun dlen nd nt oom fuel k st = some (OrchOut.done dets)) :
    ∀ d t, (d, t) ∈ dets ↔ d < nd ∧ t < nt := by
  induction fuel generalizing k st with
  | zero => exact absurd hrun (by simp [orchRun])
  | succ n ih =>
    rw [orchRun] at hrun
    cases hstep : orchStep dlen nd nt (oom k) st with
    | inl st' =>
      rw [hstep] at hrun
      exact ih (k + 1) st' (orchStep_inl_inv dlen nd nt (oom k) st st' hinv hstep) hrun
    | inr out =>
      rw [hstep] at hrun
      dsimp only at hrun
      injection hrun with hrun
      subst hrun
      exact orchStep_done_grid dlen nd nt (oom k) st dets hinv hstep


lemma orchInv_init (nd nt nmax0 : ℕ) (hnd : 1 ≤ nd) (hnt : 1 ≤ nt) (hn : 1 ≤ nmax0) :
    OrchInv nd nt (orchInit nmax0) := by
  unfold OrchInv orchInit
  dsimp only
  refine ⟨hnd, hnt, hn, Or.inl rfl, ?_, ?_, ?_⟩
  · intro p hp
    exact absurd hp (List.not_mem_nil p)
  · intro d t _ _ hd
    omega
  · intro d t _ _ _ _ ht
    omega

/-- C9: the out-of-memory recovery of the orchestrator loop.
* On a device OOM during the compute step the loop shrinks the chunk
  size through the ChunkPlanner balance function
  (`find_optimal_chunksize(N_MAX - 1, remaining data)`), discards both
  transform-cache identities, and retries with the data and template
  pointers unchanged and the detections untouched.
* If the capacity cannot shrink further (`N_MAX = 1`), the re-balance
  call itself raises `ZeroDivisionError`, terminating the process
  fatally with a non-zero status (the run ends in the `fatal` outcome).
* Every run that completes — under any failure schedule — has recorded
  exactly the full grid of (data, template) pairs, so the final set of
  emitted detections of a run with recoverable allocation failures is
  identical to that of an unconstrained run. -/
theorem oom_recovery_refinement (dlen : ℕ → ℕ) (nd nt : ℕ)
    (hnd : 1 ≤ nd) (hnt : 1 ≤ nt) :
    (∀ st : OrchSt, st.di < nd → 2 ≤ st.nmax →
      ∃ n', find_optimal_chunksize (st.nmax - 1) (nd - st.di) = some n' ∧
        1 ≤ n' ∧ n' < st.nmax ∧
        orchStep dlen nd nt true st =
          Sum.inl { st with nmax := n', dataCache := [], tempCache := [] }) ∧
    (∀ st : OrchSt, st.nmax = 1 →
      orchStep dlen nd nt true st = Sum.inr (OrchOut.fatal st.dets)) ∧
    (∀ oom : ℕ → Bool, ∀ fuel nmax0 : ℕ, ∀ dets : List (ℕ × ℕ), 1 ≤ nmax0 →
      orchRun dlen nd nt oom fuel 0 (orchInit nmax0) = some (OrchOut.done dets) →
      ∀ d t, (d, t) ∈ dets ↔ d < nd ∧ t < nt) := by
  refine ⟨?_, ?_, ?_⟩
  · intro st hdi hnm
    have hcap : 1 ≤ st.nmax - 1 := by omega
    have hrem : 1 ≤ nd - st.di := by omega
    cases hb : find_optimal_chunksize (st.nmax - 1) (nd - st.di) with
    | none =>
      exfalso
      rw [find_optimal_chunksize, if_neg (by omega)] at hb
      dsimp only at hb
      split at hb
      · rename_i hit
        have := ceilPy_pos (nd - st.di) (st.nmax - 1) (by omega) (by omega)
        omega
      · exact absurd hb (by simp)
    | some n' =>
      obtain ⟨hr1, hr2⟩ := find_optimal_chunksize_some_bounds _ _ _ hb
      refine ⟨n', rfl, hr1, by omega, ?_⟩
      rw [orchStep, if_pos rfl, hb]
      dsimp only
      rw [if_neg (by omega)]
  · intro st hnm
    rw [orchStep, if_pos rfl, hnm]
    have hb : find_optimal_chunksize 0 (nd - st.di) = none := by
      rw [find_optimal_chunksize, if_pos rfl]
    simp only [Nat.sub_self]
    rw [hb]
  · intro oom fuel nmax0 dets hn hrun
    exact orchRun_done_grid dlen nd nt oom fuel 0 (orchInit nmax0) dets
      (orchInv_init nd nt nmax0 hnd hnt hn) hrun

/-- C9 (witness): a concrete grid of 2 data items and 1 template with an
OOM failure on the very first iteration: capacity shrinks from 2 to 1,
the run completes, and the recorded set is exactly the full grid —
identical to an unconstrained run. -/
theorem oom_recovery_refinement_witness :
    (1, 0) ∈ [(0, 0), (1, 0)] ↔ 1 < 2 ∧ 0 < 1 :=
  (oom_recovery_refinement (fun _ => 1) 2 1 (by decide) (by decide)).2.2
    (fun k => k == 0) 4 2 [(0, 0), (1, 0)] (by decide) (by decide) 1 0

end SeismicMatch
